import Mathlib

/-!
# Verification of the rpc-demo protocol engine

A shallow embedding of the client engine (`src/codec/json.go`, client part)
and the server engine (`src/unnamed/part_000`) of the rpc-demo repository,
together with proofs of the specification claims about them.

Modelling conventions:
* Go `uint64` sequence numbers are `Nat` reduced modulo `2 ^ 64` exactly
  where the Go code increments them.
* The Go map `pending map[uint64]*Call` is an association list with
  overwrite-on-insert semantics (`insertKey`), `delete` is `eraseKey`,
  indexing is `lookupKey`.
* Go errors are the inductive `RpcError`: the distinguished `ErrShutdown`
  object is `RpcError.shutdown`; every other error is `RpcError.text s`
  carrying its message.
* Channel deliveries (`call.done()`) become explicit events / delivered
  lists; channel capacities are recorded as numbers.
* Fallible external calls (codec write, codec close, reads) are passed in
  as explicit outcome parameters, since the code only branches on whether
  they returned an error.
-/

namespace RpcDemo

/-- Word size of Go's `uint64`, the type of sequence numbers. -/
def u64Mod : Nat := 2 ^ 64

/-- `codec.Header`: service method, sequence number, error text
(empty string means success), mirroring `codec/codec.go`'s header as used
throughout `json.go` and the server. -/
structure Header where
  ServiceMethod : String
  Seq : Nat
  Error : String
deriving DecidableEq

/-- Go errors as observed by the client: the distinguished `ErrShutdown`
value, or any other error identified by its text. -/
inductive RpcError where
  | shutdown
  | text (s : String)
deriving DecidableEq

/-- `Call`: one in-flight invocation (client side).  The Go struct's
`Done chan *Call` is modelled by delivery events; `Args`/`Reply` are kept
abstract as strings (the code never inspects them). -/
structure Call where
  Seq : Nat
  ServiceMethod : String
  Args : String
  Error : Option RpcError
deriving DecidableEq

/-! ### Association-list model of the Go map `pending map[uint64]*Call` -/

/-- Map lookup `p[n]`. -/
def lookupKey {α : Type} (p : List (Nat × α)) (n : Nat) : Option α :=
  (p.find? (fun e => e.1 == n)).map Prod.snd

/-- Map deletion `delete(p, n)`. -/
def eraseKey {α : Type} (p : List (Nat × α)) (n : Nat) : List (Nat × α) :=
  p.filter (fun e => !(e.1 == n))

/-- Map insertion `p[n] = c` (overwrites any previous binding of `n`). -/
def insertKey {α : Type} (p : List (Nat × α)) (n : Nat) (c : α) :
    List (Nat × α) :=
  (n, c) :: eraseKey p n

/-! ### Client state and operations (`src/codec/json.go`, client part) -/

/-- The lock-guarded mutable fields of `Client`: `seq`, `pending`,
`closing`, `shutdown`.  (`cc`, `opt`, `header` and the two mutexes are
represented by explicit parameters / atomicity of the operations.) -/
structure ClientState where
  seq : Nat
  pending : List (Nat × Call)
  closing : Bool
  shutdown : Bool
deriving DecidableEq

/-- The state built by `newClientCodec`: `seq` starts at 1 (0 is reserved),
empty pending table, both flags clear. -/
def newClientCodec : ClientState :=
  { seq := 1, pending := [], closing := false, shutdown := false }

/-- `Client.registerCall`: fail with `ErrShutdown` when closing or shut
down; otherwise assign the current `seq` to the call, insert it into the
pending table, and increment `seq` (a Go `uint64` increment, hence the
modulus). -/
def registerCall (st : ClientState) (call : Call) :
    ClientState × Except RpcError Nat :=
  if st.closing || st.shutdown then
    (st, .error .shutdown)
  else
    let n := st.seq
    ({ st with
        pending := insertKey st.pending n { call with Seq := n }
        seq := (st.seq + 1) % u64Mod },
      .ok n)

/-- `Client.removeCall`: read `pending[seq]`, delete the key, return the
looked-up call (possibly absent). -/
def removeCall (st : ClientState) (n : Nat) : ClientState × Option Call :=
  ({ st with pending := eraseKey st.pending n }, lookupKey st.pending n)

/-- `Client.terminateCalls`: under both locks, set `shutdown` and deliver
every pending call once with the triggering error.  Note that the Go code
does **not** delete the entries nor reallocate the map: `pending` is left
unchanged. -/
def terminateCalls (st : ClientState) (err : RpcError) :
    ClientState × List Call :=
  ({ st with shutdown := true },
    st.pending.map (fun e => { e.2 with Error := some err }))

/-- `Client.Close`: return `ErrShutdown` when the receiver has already
torn the client down; otherwise set `closing` and close the codec, whose
result (`none` = success, `some s` = failure text) is returned as is. -/
def Close (st : ClientState) (ccCloseRes : Option String) :
    ClientState × Option RpcError :=
  if st.shutdown then
    (st, some .shutdown)
  else
    ({ st with closing := true }, ccCloseRes.map .text)

/-- `Client.IsAvailable`. -/
def IsAvailable (st : ClientState) : Bool :=
  !st.closing && !st.shutdown

/-! ### The client send path (`Client.send`, `Client.Go`) -/

/-- Externally observable actions of the send path: a frame write attempt
on the codec, or a terminal delivery (`call.done()`). -/
inductive SendEvent where
  | writeAttempt (h : Header) (args : String)
  | delivered (c : Call)
deriving DecidableEq

/-- `Client.send` under the send lock: register the call (delivering the
registration error immediately on failure, with no I/O); otherwise prepare
the header and write the frame; on write failure remove the call from the
pending table and, when it was still there, deliver it with the write
error.  `writeRes` is the codec `Write` outcome (`none` = success). -/
def send (st : ClientState) (call : Call) (writeRes : Option RpcError) :
    ClientState × List SendEvent :=
  match registerCall st call with
  | (st1, .error e) =>
      (st1, [.delivered { call with Error := some e }])
  | (st1, .ok seq) =>
      let h : Header :=
        { ServiceMethod := call.ServiceMethod, Seq := seq, Error := "" }
      match writeRes with
      | none => (st1, [.writeAttempt h call.Args])
      | some werr =>
          match removeCall st1 seq with
          | (st2, some c) =>
              (st2, [.writeAttempt h call.Args,
                     .delivered { c with Error := some werr }])
          | (st2, none) =>
              (st2, [.writeAttempt h call.Args])

/-- The `done` argument of `Client.Go`: Go's `nil` channel, or a channel
with the given capacity. -/
inductive DoneArg where
  | nilChan
  | buffered (cap : Nat)
deriving DecidableEq

/-- The `Call` literal built inside `Client.Go` (zero-valued `Seq`). -/
def mkCall (serviceMethod args : String) : Call :=
  { Seq := 0, ServiceMethod := serviceMethod, Args := args, Error := none }

/-- `Client.Go`: a `nil` done channel is replaced by a fresh channel of
capacity 10; an unbuffered channel causes `log.Panic` (modelled as
`Except.error`, performing no submission); otherwise the caller's channel
is used as given and the call is submitted via `send`.  On success the
result records the capacity of the channel actually used. -/
def Go (st : ClientState) (serviceMethod args : String) (done : DoneArg)
    (writeRes : Option RpcError) :
    Except String (Nat × ClientState × List SendEvent) :=
  match done with
  | .nilChan => .ok (10, send st (mkCall serviceMethod args) writeRes)
  | .buffered 0 => .error "rpc client: done channel is unbuffered"
  | .buffered (c + 1) =>
      .ok (c + 1, send st (mkCall serviceMethod args) writeRes)

/-! ### The client receiver (`Client.receive`) -/

/-- One iteration's worth of input to the receiver: the header read fails
with error text `e`, or a header is read and the subsequent body read
either succeeds (`none`) or fails with text (`some e`). -/
inductive RecvInput where
  | hdrErr (e : String)
  | frame (h : Header) (bodyErr : Option String)
deriving DecidableEq

/-- The `for err == nil` loop body of `Client.receive`: process inputs
until the first read error; return the final state, the calls delivered
(in order), and the terminating error text (`none` if the input list is
exhausted while the loop is still running). -/
def receiveLoop (st : ClientState) :
    List RecvInput → ClientState × List Call × Option String
  | [] => (st, [], none)
  | .hdrErr e :: _ => (st, [], some e)
  | .frame h bodyErr :: rest =>
      match removeCall st h.Seq with
      | (st1, none) =>
          -- call absent: discard the body; its read error ends the loop
          match bodyErr with
          | some e => (st1, [], some e)
          | none => receiveLoop st1 rest
      | (st1, some call) =>
          if h.Error ≠ "" then
            -- server-side failure: error from the header, body discarded,
            -- the call is delivered even when the body read fails
            let c := { call with Error := some (.text h.Error) }
            match bodyErr with
            | some e => (st1, [c], some e)
            | none =>
                let (st2, ds, err) := receiveLoop st1 rest
                (st2, c :: ds, err)
          else
            match bodyErr with
            | some e =>
                (st1, [{ call with Error := some (.text ("read body " ++ e)) }],
                  some e)
            | none =>
                let (st2, ds, err) := receiveLoop st1 rest
                (st2, call :: ds, err)

/-- `Client.receive`: run the loop; when it exits on a read error, run
`terminateCalls` with that error and append the sweep's deliveries. -/
def receive (st : ClientState) (inputs : List RecvInput) :
    ClientState × List Call :=
  match receiveLoop st inputs with
  | (st1, ds, none) => (st1, ds)
  | (st1, ds, some e) =>
      let (st2, ts) := terminateCalls st1 (.text e)
      (st2, ds ++ ts)

/-! ### Server engine (`src/unnamed/part_000`) -/

/-- The fixed handshake magic constant (`const MagicNumber = 0xffff7777`). -/
def MagicNumber : Nat := 0xffff7777

/-- `Option` of the server file (renamed: `Option` is taken in Lean):
the one-shot handshake payload. -/
structure RpcOption where
  MagicNumber : Nat
  CodecType : String
deriving DecidableEq

/-- `DefaultOption` (the codec type string itself lives in the codec
package's registry, which we keep abstract; see `ServeConn`). -/
def DefaultOption (jsonType : String) : RpcOption :=
  { MagicNumber := MagicNumber, CodecType := jsonType }

/-- One inbound frame-read attempt on a serving connection, as classified
by `Server.readRequest`: the header decode fails; the header decodes but
the body decode fails with text `e`; or both decode (`args` is the decoded
placeholder string argument). -/
inductive InFrame where
  | headerFail
  | bodyFail (h : Header) (e : String)
  | good (h : Header) (args : String)
deriving DecidableEq

/-- A response body: the `invalidRequest` placeholder (empty struct), or a
real reply value. -/
inductive RespBody where
  | invalidReq
  | reply (s : String)
deriving DecidableEq

/-- `Server.handleRequest`: fabricate the deterministic placeholder reply
`fmt.Sprintf("rpc resp %d", req.h.Seq)` and send it with the request's
header.  The decoded argument is only logged, never used. -/
def handleRequest (h : Header) (argv : String) : Header × RespBody :=
  (h, .reply ("rpc resp " ++ toString h.Seq))

/-- The read-dispatch loop of `Server.serveCodec`, split into what the loop
thread itself does: it stops at the first header-decode failure; a
body-decode failure makes it send one `invalidRequest` response carrying
the failure text in the header's error field and continue; a well-formed
request is handed to a spawned handler (second component) and the loop
continues.  Returns (loop-emitted responses, spawned requests), each in
loop order. -/
def serveLoop : List InFrame → List (Header × RespBody) × List (Header × String)
  | [] => ([], [])
  | .headerFail :: _ => ([], [])
  | .bodyFail h e :: rest =>
      let (rs, hs) := serveLoop rest
      (({ h with Error := e }, .invalidReq) :: rs, hs)
  | .good h a :: rest =>
      let (rs, hs) := serveLoop rest
      (rs, (h, a) :: hs)

/-- All responses a serving connection eventually writes for the given
inbound frames: the loop's own invalid-request responses plus one handler
response per spawned request (the interleaving between the two is settled
by the `SrvState` machine below; here we only collect them). -/
def serveCodecResponses (frames : List InFrame) : List (Header × RespBody) :=
  (serveLoop frames).1 ++ (serveLoop frames).2.map (fun r => handleRequest r.1 r.2)

/-- Outcome of `Server.ServeConn`'s handshake section. -/
inductive ConnResult where
  | optDecodeFail
  | badMagic
  | badCodecType
  | served
deriving DecidableEq

/-- `Server.ServeConn`: decode the `Option` (decode outcome is the
`optDecode` parameter), check the magic number, look the codec type up in
`codec.NewCodecFuncMap` (kept abstract as the predicate `codecRegistered`,
since the codec package's registry file is not part of the client/server
sources), and only then enter `serveCodec`.  Every abort path closes the
connection having produced no responses. -/
def ServeConn (codecRegistered : String → Bool) (optDecode : Option RpcOption)
    (frames : List InFrame) : ConnResult × List (Header × RespBody) :=
  match optDecode with
  | none => (.optDecodeFail, [])
  | some opt =>
      if opt.MagicNumber ≠ MagicNumber then (.badMagic, [])
      else if codecRegistered opt.CodecType then (.served, serveCodecResponses frames)
      else (.badCodecType, [])

/-! ### Server connection machine (for the draining/close discipline)

`serveCodec` spawns one handler per well-formed request and lets them race
for the send lock; after the loop breaks it waits on the wait-group and
closes the codec.  The machine below has one step per atomic action:
a loop read (of each of the three kinds), the completion of one
outstanding handler (any of them — they race), and the final codec close,
which is only enabled once the loop has exited and the wait-group has
drained. -/

/-- An observable action on a serving connection's codec: one response
frame write (under the send lock), or closing the codec. -/
inductive SrvEvent where
  | resp (h : Header) (b : RespBody)
  | closedEv
deriving DecidableEq

/-- State of one serving connection inside `serveCodec`. -/
structure SrvState where
  frames : List InFrame
  looping : Bool
  outstanding : List (Header × String)
  events : List SrvEvent
  closed : Bool
deriving DecidableEq

/-- Entry into `serveCodec` with the connection's inbound frames. -/
def srvInit (frames : List InFrame) : SrvState :=
  { frames := frames, looping := true, outstanding := [], events := [],
    closed := false }

/-- One atomic action of the serving connection. -/
inductive SStep : SrvState → SrvState → Prop where
  | readHeaderFail (s : SrvState) (rest : List InFrame) :
      s.looping = true → s.frames = .headerFail :: rest →
      SStep s { s with looping := false, frames := rest }
  | readBodyFail (s : SrvState) (h : Header) (e : String)
      (rest : List InFrame) :
      s.looping = true → s.frames = .bodyFail h e :: rest →
      SStep s { s with frames := rest,
                       events := s.events ++ [.resp { h with Error := e } .invalidReq] }
  | readGood (s : SrvState) (h : Header) (a : String) (rest : List InFrame) :
      s.looping = true → s.frames = .good h a :: rest →
      SStep s { s with frames := rest, outstanding := s.outstanding ++ [(h, a)] }
  | handleOne (s : SrvState) (i : Nat) (hi : i < s.outstanding.length) :
      SStep s { s with outstanding := s.outstanding.eraseIdx i,
                       events := s.events ++
                         [.resp ((handleRequest (s.outstanding.get ⟨i, hi⟩).1
                                    (s.outstanding.get ⟨i, hi⟩).2).1)
                               ((handleRequest (s.outstanding.get ⟨i, hi⟩).1
                                    (s.outstanding.get ⟨i, hi⟩).2).2)] }
  | closeCodec (s : SrvState) :
      s.looping = false → s.outstanding = [] → s.closed = false →
      SStep s { s with closed := true, events := s.events ++ [.closedEv] }

/-- Reachability inside `serveCodec` from its entry state. -/
def SReach (frames : List InFrame) (s : SrvState) : Prop :=
  Relation.ReflTransGen SStep (srvInit frames) s

/-! ### Flat client-operation traces (sequence-number discipline)

Every mutation of the lock-guarded client fields happens inside one of the
four mutex-protected sections below; the client's lifetime is an arbitrary
interleaving of them, i.e. a list of `ClientOp`s applied in order. -/

/-- One atomic (mutex-protected) client-state operation. -/
inductive ClientOp where
  | opRegister (c : Call)
  | opRemove (n : Nat)
  | opTerminate (e : RpcError)
  | opClose
deriving DecidableEq

/-- Whether an operation is a registration attempt. -/
def ClientOp.isRegister : ClientOp → Bool
  | .opRegister _ => true
  | _ => false

/-- Apply one operation; the second component is the sequence number it
assigned, when it was a successful registration. -/
def applyOp (st : ClientState) : ClientOp → ClientState × Option Nat
  | .opRegister c =>
      match registerCall st c with
      | (st', .ok n) => (st', some n)
      | (st', .error _) => (st', none)
  | .opRemove n => ((removeCall st n).1, none)
  | .opTerminate e => ((terminateCalls st e).1, none)
  | .opClose => ((Close st none).1, none)

/-- Run a trace of operations, collecting the assigned sequence numbers in
order of assignment. -/
def runOps : ClientState → List ClientOp → ClientState × List Nat
  | st, [] => (st, [])
  | st, op :: rest =>
      let (st1, a) := applyOp st op
      let (st2, assigned) := runOps st1 rest
      (st2, a.toList ++ assigned)

/-- No operation other than a successful registration changes `seq`, and a
successful registration steps it by exactly one (no wraparound) while it
stays below the bound. -/
theorem applyOp_seq (st : ClientState) (op : ClientOp)
    (hb : st.seq + 1 < u64Mod) :
    (applyOp st op).1.seq = st.seq ∨
      ((applyOp st op).1.seq = st.seq + 1 ∧ (applyOp st op).2 = some st.seq) := by
  cases op with
  | opRegister c =>
      by_cases hcs : (st.closing || st.shutdown) = true
      · left
        simp [applyOp, registerCall, hcs]
      · right
        simp only [applyOp, registerCall, hcs]
        constructor
        · simp [Nat.mod_eq_of_lt hb]
        · rfl
  | opRemove n => left; rfl
  | opTerminate e => left; rfl
  | opClose =>
      left
      by_cases hs : st.shutdown = true <;> simp [applyOp, Close, hs]

/-- Core sequencing lemma: along any trace whose registration attempts keep
`seq` below the `uint64` wraparound, the assigned sequence numbers are
exactly the consecutive block starting at the current `seq`. -/
theorem runOps_assigned (ops : List ClientOp) :
    ∀ st : ClientState,
      st.seq + ops.countP ClientOp.isRegister < u64Mod →
      (runOps st ops).2 =
        List.range' st.seq (runOps st ops).2.length := by
  induction ops with
  | nil => intro st _; rfl
  | cons op rest ih =>
      intro st hb
      cases op with
      | opRegister c =>
          have hcount : (List.countP ClientOp.isRegister (.opRegister c :: rest))
              = List.countP ClientOp.isRegister rest + 1 := by
            simp [List.countP_cons, ClientOp.isRegister]
          rw [hcount] at hb
          by_cases hcs : (st.closing || st.shutdown) = true
          · have happ : applyOp st (.opRegister c) = (st, none) := by
              simp [applyOp, registerCall, hcs]
            have hrest := ih st (by omega)
            simp only [runOps, happ]
            simpa using hrest
          · have hseq : ((st.seq + 1) % u64Mod) = st.seq + 1 :=
              Nat.mod_eq_of_lt (by omega)
            have happ : applyOp st (.opRegister c) =
                ({ st with
                    pending := insertKey st.pending st.seq { c with Seq := st.seq }
                    seq := (st.seq + 1) % u64Mod }, some st.seq) := by
              simp [applyOp, registerCall, hcs]
            have hrest := ih
              { st with
                  pending := insertKey st.pending st.seq { c with Seq := st.seq }
                  seq := (st.seq + 1) % u64Mod }
              (by simpa [hseq] using (by omega :
                    st.seq + 1 + List.countP ClientOp.isRegister rest < u64Mod))
            simp only [runOps, happ]
            simp only [hseq] at hrest ⊢
            rw [hrest]
            simp [List.range'_succ]
      | opRemove n =>
          have happ : applyOp st (.opRemove n) = ((removeCall st n).1, none) := rfl
          have hseq : (removeCall st n).1.seq = st.seq := rfl
          have hrest := ih (removeCall st n).1 (by
            rw [hseq]
            have : List.countP ClientOp.isRegister (.opRemove n :: rest)
                = List.countP ClientOp.isRegister rest := by
              simp [List.countP_cons, ClientOp.isRegister]
            omega)
          simp only [runOps, happ]
          simpa [hseq] using hrest
      | opTerminate e =>
          have happ : applyOp st (.opTerminate e)
              = ((terminateCalls st e).1, none) := rfl
          have hseq : (terminateCalls st e).1.seq = st.seq := rfl
          have hrest := ih (terminateCalls st e).1 (by
            rw [hseq]
            have : List.countP ClientOp.isRegister (.opTerminate e :: rest)
                = List.countP ClientOp.isRegister rest := by
              simp [List.countP_cons, ClientOp.isRegister]
            omega)
          simp only [runOps, happ]
          simpa [hseq] using hrest
      | opClose =>
          have happ : applyOp st .opClose = ((Close st none).1, none) := rfl
          have hseq : (Close st none).1.seq = st.seq := by
            by_cases hs : st.shutdown = true <;> simp [Close, hs]
          have hrest := ih (Close st none).1 (by
            rw [hseq]
            have : List.countP ClientOp.isRegister (.opClose :: rest)
                = List.countP ClientOp.isRegister rest := by
              simp [List.countP_cons, ClientOp.isRegister]
            omega)
          simp only [runOps, happ]
          simpa [hseq] using hrest

/-! ### Association-list lemmas -/

section MapLemmas

variable {α : Type}

/-- The keys of the association list are pairwise distinct (true of every
Go map image). -/
def KeysNodup (p : List (Nat × α)) : Prop := (p.map Prod.fst).Nodup

/-- Number of entries whose value is `t`. -/
def countVal [DecidableEq α] (p : List (Nat × α)) (t : α) : Nat :=
  p.countP (fun e => decide (e.2 = t))

theorem lookupKey_cons_self {p : List (Nat × α)} {n : Nat} {c : α} :
    lookupKey ((n, c) :: p) n = some c := by
  simp [lookupKey, List.find?_cons_of_pos]

theorem lookupKey_cons_ne {p : List (Nat × α)} {m n : Nat} {c : α}
    (h : m ≠ n) : lookupKey ((n, c) :: p) m = lookupKey p m := by
  simp only [lookupKey]
  rw [List.find?_cons_of_neg]
  simpa using fun h' => (h h'.symm).elim

theorem lookupKey_eq_none_iff {p : List (Nat × α)} {n : Nat} :
    lookupKey p n = none ↔ n ∉ p.map Prod.fst := by
  simp only [lookupKey, Option.map_eq_none']
  constructor
  · intro h hmem
    obtain ⟨e, he, hfst⟩ := List.mem_map.mp hmem
    exact List.find?_eq_none.mp h e he (by simpa using hfst)
  · intro h
    apply List.find?_eq_none.mpr
    intro e he hbe
    exact h ((by simpa using hbe : e.1 = n) ▸ List.mem_map_of_mem Prod.fst he)

theorem mem_of_lookupKey_eq_some {p : List (Nat × α)} {n : Nat} {c : α}
    (h : lookupKey p n = some c) : (n, c) ∈ p := by
  simp only [lookupKey, Option.map_eq_some'] at h
  obtain ⟨e, he, rfl⟩ := h
  have h1 := List.find?_some he
  have h2 := List.mem_of_find?_eq_some he
  have : e.1 = n := by simpa using h1
  simpa [← this] using h2

theorem lookupKey_eq_of_mem {p : List (Nat × α)} {n : Nat} {a : α}
    (hk : KeysNodup p) (h : (n, a) ∈ p) : lookupKey p n = some a := by
  induction p with
  | nil => cases h
  | cons e rest ih =>
      have hmap : (e.1 :: rest.map Prod.fst).Nodup := by
        rw [← List.map_cons]; exact hk
      have hk1 := (List.nodup_cons.mp hmap).1
      have hk' : KeysNodup rest := (List.nodup_cons.mp hmap).2
      by_cases he : e.1 = n
      · have hnr : n ∉ rest.map Prod.fst := he ▸ hk1
        rcases List.mem_cons.mp h with h1 | h1
        · subst h1
          exact lookupKey_cons_self
        · exact absurd (List.mem_map_of_mem Prod.fst h1) hnr
      · rcases List.mem_cons.mp h with h1 | h1
        · exact absurd (congrArg Prod.fst h1).symm he
        · rw [show e :: rest = (e.1, e.2) :: rest from rfl,
            lookupKey_cons_ne (fun hn => he hn.symm)]
          exact ih hk' h1

theorem eraseKey_of_not_mem {p : List (Nat × α)} {n : Nat}
    (h : n ∉ p.map Prod.fst) : eraseKey p n = p := by
  apply List.filter_eq_self.mpr
  intro e he
  simp only [Bool.not_eq_eq_eq_not, Bool.not_true, beq_eq_false_iff_ne]
  intro hn
  exact h (hn ▸ List.mem_map_of_mem Prod.fst he)

theorem lookupKey_eraseKey_self {p : List (Nat × α)} {n : Nat} :
    lookupKey (eraseKey p n) n = none := by
  simp only [lookupKey, Option.map_eq_none', List.find?_eq_none]
  intro e he
  have := (List.mem_filter.mp he).2
  simpa using this

theorem lookupKey_eraseKey_ne {p : List (Nat × α)} {m n : Nat}
    (h : m ≠ n) : lookupKey (eraseKey p n) m = lookupKey p m := by
  induction p with
  | nil => rfl
  | cons e rest ih =>
      by_cases he : e.1 = n
      · have : eraseKey (e :: rest) n = eraseKey rest n := by
          simp [eraseKey, List.filter_cons, he]
        rw [this, ih, show e :: rest = (e.1, e.2) :: rest from rfl,
          lookupKey_cons_ne (he ▸ h)]
      · have : eraseKey (e :: rest) n = e :: eraseKey rest n := by
          simp [eraseKey, List.filter_cons, he]
        rw [this]
        by_cases hm : e.1 = m
        · rw [show e :: eraseKey rest n = (e.1, e.2) :: eraseKey rest n from rfl,
            show e :: rest = (e.1, e.2) :: rest from rfl, hm]
          rw [lookupKey_cons_self, lookupKey_cons_self]
        · rw [show e :: eraseKey rest n = (e.1, e.2) :: eraseKey rest n from rfl,
            show e :: rest = (e.1, e.2) :: rest from rfl,
            lookupKey_cons_ne (fun hn => hm hn.symm),
            lookupKey_cons_ne (fun hn => hm hn.symm), ih]

theorem lookupKey_eraseKey_none {p : List (Nat × α)} {m n : Nat}
    (h : lookupKey p m = none) : lookupKey (eraseKey p n) m = none := by
  by_cases hmn : m = n
  · subst hmn; exact lookupKey_eraseKey_self
  · rw [lookupKey_eraseKey_ne hmn]; exact h

theorem keysNodup_eraseKey {p : List (Nat × α)} {n : Nat}
    (hk : KeysNodup p) : KeysNodup (eraseKey p n) :=
  ((List.filter_sublist p).map Prod.fst).nodup hk

theorem perm_cons_eraseKey {p : List (Nat × α)} {n : Nat} {c : α}
    (hk : KeysNodup p) (h : lookupKey p n = some c) :
    p.Perm ((n, c) :: eraseKey p n) := by
  induction p with
  | nil => simp [lookupKey] at h
  | cons e rest ih =>
      have hmap : (e.1 :: rest.map Prod.fst).Nodup := by
        rw [← List.map_cons]; exact hk
      have hk1 := (List.nodup_cons.mp hmap).1
      have hk' : KeysNodup rest := (List.nodup_cons.mp hmap).2
      by_cases he : e.1 = n
      · have hnr : n ∉ rest.map Prod.fst := he ▸ hk1
        have hc : c = e.2 := by
          rw [show e :: rest = (e.1, e.2) :: rest from rfl, he,
            lookupKey_cons_self] at h
          exact (Option.some_inj.mp h).symm
        have her : eraseKey (e :: rest) n = eraseKey rest n := by
          simp [eraseKey, List.filter_cons, he]
        rw [her, eraseKey_of_not_mem hnr, hc, ← he]
      · have hlook : lookupKey rest n = some c := by
          rw [show e :: rest = (e.1, e.2) :: rest from rfl,
            lookupKey_cons_ne (fun hn => he hn.symm)] at h
          exact h
        have her : eraseKey (e :: rest) n = e :: eraseKey rest n := by
          simp [eraseKey, List.filter_cons, he]
        rw [her]
        exact ((ih hk' hlook).cons e).trans (List.Perm.swap (n, c) e _)

theorem countVal_cons [DecidableEq α] {p : List (Nat × α)} {n : Nat} {c : α} {t : α} :
    countVal ((n, c) :: p) t = countVal p t + if c = t then 1 else 0 := by
  simp only [countVal, List.countP_cons]
  by_cases h : c = t <;> simp [h]

theorem countVal_cons_ne [DecidableEq α] {p : List (Nat × α)} {n : Nat} {c t : α}
    (h : c ≠ t) : countVal ((n, c) :: p) t = countVal p t := by
  rw [countVal_cons, if_neg h, Nat.add_zero]

theorem countVal_cons_self [DecidableEq α] {p : List (Nat × α)} {n : Nat} {t : α} :
    countVal ((n, t) :: p) t = countVal p t + 1 := by
  rw [countVal_cons, if_pos rfl]

theorem countVal_eraseKey_of_lookup [DecidableEq α] {p : List (Nat × α)} {n : Nat}
    {c t : α} (hk : KeysNodup p) (h : lookupKey p n = some c) :
    countVal p t = countVal (eraseKey p n) t + if c = t then 1 else 0 := by
  have hperm := perm_cons_eraseKey hk h
  have := hperm.countP_eq (fun e => decide (e.2 = t))
  rw [show countVal p t = List.countP (fun e => decide (e.2 = t)) p from rfl,
    this]
  exact countVal_cons

theorem countVal_pos_of_mem [DecidableEq α] {p : List (Nat × α)} {n : Nat} {t : α}
    (h : (n, t) ∈ p) : 0 < countVal p t :=
  List.countP_pos.mpr ⟨(n, t), h, by simp⟩

theorem two_le_length_of_mem_mem {β : Type} {l : List β} {a b : β}
    (ha : a ∈ l) (hb : b ∈ l) (hab : a ≠ b) : 2 ≤ l.length := by
  cases l with
  | nil => cases ha
  | cons x xs =>
      rcases List.mem_cons.mp ha with h1 | h1
      · rcases List.mem_cons.mp hb with h2 | h2
        · exact absurd (h1 ▸ h2 ▸ rfl) hab
        · have := List.length_pos_of_mem h2
          simp only [List.length_cons]
          omega
      · have := List.length_pos_of_mem h1
        simp only [List.length_cons]
        omega

theorem countVal_key_unique [DecidableEq α] {p : List (Nat × α)} {m n : Nat} {t : α}
    (hcount : countVal p t = 1) (hm : (m, t) ∈ p) (hn : (n, t) ∈ p) :
    m = n := by
  by_contra hne
  have hm' : (m, t) ∈ p.filter (fun e => decide (e.2 = t)) :=
    List.mem_filter.mpr ⟨hm, by simp⟩
  have hn' : (n, t) ∈ p.filter (fun e => decide (e.2 = t)) :=
    List.mem_filter.mpr ⟨hn, by simp⟩
  have h2 := two_le_length_of_mem_mem hm' hn' (by simp [hne])
  rw [show (p.filter (fun e => decide (e.2 = t))).length
      = countVal p t from (List.countP_eq_length_filter _ _).symm] at h2
  omega

theorem countVal_eq_zero_iff [DecidableEq α] {p : List (Nat × α)} {t : α} :
    countVal p t = 0 ↔ ∀ n : Nat, (n, t) ∉ p := by
  simp only [countVal, List.countP_eq_zero]
  constructor
  · intro h n hn
    exact absurd (by simp : decide (((n, t) : Nat × α).2 = t) = true) (by simpa using h _ hn)
  · intro h e he
    simp only [decide_eq_true_eq]
    intro h2
    exact h e.1 (by rwa [show (e.1, t) = e from by rw [← h2]])

theorem mem_eraseKey_imp {p : List (Nat × α)} {n : Nat} {e : Nat × α}
    (h : e ∈ eraseKey p n) : e ∈ p :=
  (List.mem_filter.mp h).1

end MapLemmas

/-! ### Client concurrency machine

`N` caller tasks each perform one `Client.Go`, racing with the single
receiver task and possible `Close` calls.  Each step below is one
mutex-protected section of `json.go` (a `done()` that immediately and
unconditionally follows such a section is fused into it — no other task
observes the intermediate point, since nothing else reads the completion
channels).  The send lock is held by a sender from the top of `send` to
its return, so `terminateCalls` (which acquires it first) can only run
while no sender is inside `send`. -/

/-- Program counter of one `Go`-calling task inside `Client.send`. -/
inductive SenderPhase where
  | idle
  | holding
  | registered (n : Nat)
  | finished
deriving DecidableEq

/-- Global state: the client's guarded fields, the send-lock owner, each
sender task's phase, whether the receiver has terminated, and how many
terminal deliveries each task's call has received. -/
structure MachState (N : Nat) where
  seq : Nat
  pending : List (Nat × Fin N)
  closing : Bool
  shutdown : Bool
  sendOwner : Option (Fin N)
  phase : Fin N → SenderPhase
  recvDone : Bool
  doneCount : Fin N → Nat

variable {N : Nat}

/-- Sender `t` acquires the send lock (top of `Client.send`). -/
def acquireRes (s : MachState N) (t : Fin N) : MachState N :=
  { s with sendOwner := some t,
           phase := Function.update s.phase t .holding }

/-- `registerCall` fails with `ErrShutdown`: the call is delivered at once
and `send` returns (releasing the lock). -/
def registerFailRes (s : MachState N) (t : Fin N) : MachState N :=
  { s with sendOwner := none,
           phase := Function.update s.phase t .finished,
           doneCount := Function.update s.doneCount t (s.doneCount t + 1) }

/-- `registerCall` succeeds: the call gets the current `seq`, enters the
pending table, and `seq` is incremented (as a `uint64`). -/
def registerOkRes (s : MachState N) (t : Fin N) : MachState N :=
  { s with seq := (s.seq + 1) % u64Mod,
           pending := insertKey s.pending s.seq t,
           phase := Function.update s.phase t (.registered s.seq) }

/-- The codec `Write` succeeds: `send` returns, the call stays pending for
the receiver. -/
def writeOkRes (s : MachState N) (t : Fin N) : MachState N :=
  { s with sendOwner := none,
           phase := Function.update s.phase t .finished }

/-- The codec `Write` fails: `removeCall(seq)`, and only when the call was
still pending is it delivered with the write error. -/
def writeFailRes (s : MachState N) (t : Fin N) (n : Nat) : MachState N :=
  match lookupKey s.pending n with
  | some t' =>
      { s with pending := eraseKey s.pending n,
               doneCount := Function.update s.doneCount t' (s.doneCount t' + 1),
               sendOwner := none,
               phase := Function.update s.phase t .finished }
  | none =>
      { s with sendOwner := none,
               phase := Function.update s.phase t .finished }

/-- Receiver iteration whose header matched pending call of task `t`:
`removeCall` plus the one delivery of that call (any of the three
`call != nil` branches of `receive`). -/
def recvMatchRes (s : MachState N) (n : Nat) (t : Fin N) : MachState N :=
  { s with pending := eraseKey s.pending n,
           doneCount := Function.update s.doneCount t (s.doneCount t + 1) }

/-- The receiver loop exits and runs `terminateCalls`: set `shutdown` and
deliver every pending call once; the pending table itself is left as is
(the Go code performs no `delete`). -/
def recvTerminateRes (s : MachState N) : MachState N :=
  { s with shutdown := true, recvDone := true,
           doneCount := fun x => s.doneCount x + countVal s.pending x }

/-- `Client.Close` (any caller, any time): no-op when `shutdown` is already
set, otherwise sets `closing`. -/
def closeRes (s : MachState N) : MachState N :=
  if s.shutdown then s else { s with closing := true }

/-- One atomic transition of the client system. -/
inductive MStep : MachState N → MachState N → Prop where
  | acquire (s : MachState N) (t : Fin N) :
      s.phase t = .idle → s.sendOwner = none → MStep s (acquireRes s t)
  | registerFail (s : MachState N) (t : Fin N) :
      s.phase t = .holding → (s.closing || s.shutdown) = true →
      MStep s (registerFailRes s t)
  | registerOk (s : MachState N) (t : Fin N) :
      s.phase t = .holding → (s.closing || s.shutdown) = false →
      MStep s (registerOkRes s t)
  | writeOk (s : MachState N) (t : Fin N) (n : Nat) :
      s.phase t = .registered n → MStep s (writeOkRes s t)
  | writeFail (s : MachState N) (t : Fin N) (n : Nat) :
      s.phase t = .registered n → MStep s (writeFailRes s t n)
  | recvMatch (s : MachState N) (n : Nat) (t : Fin N) :
      s.recvDone = false → lookupKey s.pending n = some t →
      MStep s (recvMatchRes s n t)
  | recvNoMatch (s : MachState N) (n : Nat) :
      s.recvDone = false → lookupKey s.pending n = none → MStep s s
  | recvTerminate (s : MachState N) :
      s.recvDone = false → s.sendOwner = none → MStep s (recvTerminateRes s)
  | closeClient (s : MachState N) : MStep s (closeRes s)

/-- Initial state: fresh client from `newClientCodec`, all `N` callers
about to invoke `Go`, receiver running. -/
def initMach (N : Nat) : MachState N :=
  { seq := 1, pending := [], closing := false, shutdown := false,
    sendOwner := none, phase := fun _ => .idle, recvDone := false,
    doneCount := fun _ => 0 }

/-- Reachability of the client system. -/
def MReach (N : Nat) (s : MachState N) : Prop :=
  Relation.ReflTransGen MStep (initMach N) s

/-- Weight of a phase for counting tasks that may still register. -/
def phWeight : SenderPhase → Nat
  | .idle => 1
  | .holding => 1
  | _ => 0

/-- Number of tasks that may still register a call. -/
def idleHold (f : Fin N → SenderPhase) : Nat :=
  ∑ t, phWeight (f t)

/-- Per-task part of the machine invariant. -/
def phaseInv (s : MachState N) (t : Fin N) : Prop :=
  match s.phase t with
  | .idle => s.doneCount t = 0 ∧ countVal s.pending t = 0
  | .holding => s.doneCount t = 0 ∧ countVal s.pending t = 0
  | .registered n =>
      n < s.seq ∧
      ((s.doneCount t = 0 ∧ lookupKey s.pending n = some t ∧
          countVal s.pending t = 1) ∨
       (s.doneCount t = 1 ∧ countVal s.pending t = 0 ∧
          lookupKey s.pending n = none))
  | .finished =>
      if s.recvDone then s.doneCount t = 1
      else s.doneCount t + countVal s.pending t = 1

/-- The client-system invariant. -/
def Inv (s : MachState N) : Prop :=
  (∀ t, phaseInv s t) ∧
  (∀ e ∈ s.pending, e.1 < s.seq) ∧
  KeysNodup s.pending ∧
  s.seq + idleHold s.phase ≤ N + 1 ∧
  1 ≤ s.seq ∧
  (s.recvDone = true → s.shutdown = true) ∧
  (∀ t, s.sendOwner = some t ↔
    (s.phase t = .holding ∨ ∃ n, s.phase t = .registered n)) ∧
  (s.recvDone = true → ∀ t n, s.phase t ≠ .registered n)

/-! ### Invariant preservation -/

theorem idleHold_update (f : Fin N → SenderPhase) (t : Fin N)
    (v : SenderPhase) :
    idleHold (Function.update f t v) + phWeight (f t)
      = idleHold f + phWeight v := by
  classical
  unfold idleHold
  have h1 : ∀ x, phWeight (Function.update f t v x)
      = Function.update (fun y => phWeight (f y)) t (phWeight v) x := by
    intro x
    by_cases hx : x = t
    · subst hx; simp
    · simp [Function.update_noteq hx]
  rw [Finset.sum_congr rfl (fun x _ => h1 x),
    Finset.sum_update_of_mem (Finset.mem_univ t),
    Finset.sdiff_singleton_eq_erase]
  have h2 : phWeight (f t) + ∑ x ∈ Finset.univ.erase t, phWeight (f x)
      = ∑ x, phWeight (f x) :=
    Finset.add_sum_erase Finset.univ (fun x => phWeight (f x))
      (Finset.mem_univ t)
  omega

theorem phWeight_le_idleHold (f : Fin N → SenderPhase) (t : Fin N) :
    phWeight (f t) ≤ idleHold f := by
  unfold idleHold
  exact Finset.single_le_sum (f := fun x => phWeight (f x))
    (fun i _ => Nat.zero_le _) (Finset.mem_univ t)

/-- `phaseInv` only looks at the fields listed here. -/
theorem phaseInv_congr (s s' : MachState N) (x : Fin N)
    (hph : s'.phase x = s.phase x) (hd : s'.doneCount x = s.doneCount x)
    (hp : s'.pending = s.pending) (hs : s'.seq = s.seq)
    (hr : s'.recvDone = s.recvDone) :
    phaseInv s x → phaseInv s' x := by
  intro h
  unfold phaseInv at h ⊢
  rw [hph, hd, hp, hs, hr]
  exact h

theorem inv_acquire (s : MachState N) (t : Fin N) (hinv : Inv s)
    (h1 : s.phase t = .idle) (h2 : s.sendOwner = none) :
    Inv (acquireRes s t) := by
  obtain ⟨hph, hkey, hnod, hbound, hseq1, hrs, hlock, hreg⟩ := hinv
  refine ⟨?_, hkey, hnod, ?_, hseq1, hrs, ?_, ?_⟩
  · intro x
    by_cases hx : x = t
    · subst hx
      have hold := hph x
      simp only [phaseInv, h1] at hold
      simp only [phaseInv, acquireRes, Function.update_same]
      exact hold
    · exact phaseInv_congr s _ x (Function.update_noteq hx _ _) rfl rfl rfl rfl
        (hph x)
  · have heq := idleHold_update s.phase t .holding
    rw [h1] at heq
    simp only [phWeight] at heq
    simp only [acquireRes]
    omega
  · intro x
    by_cases hx : x = t
    · subst hx
      simp [acquireRes, Function.update_same]
    · simp only [acquireRes, Function.update_noteq hx]
      constructor
      · intro hcontra
        exact absurd (Option.some_inj.mp hcontra) (fun h => hx h.symm)
      · intro hr
        have := (hlock x).mpr hr
        rw [h2] at this
        cases this
  · intro hr x n
    by_cases hx : x = t
    · subst hx
      simp [acquireRes, Function.update_same]
    · simp only [acquireRes, Function.update_noteq hx]
      exact hreg hr x n

theorem inv_registerFail (s : MachState N) (t : Fin N) (hinv : Inv s)
    (h1 : s.phase t = .holding) (h2 : (s.closing || s.shutdown) = true) :
    Inv (registerFailRes s t) := by
  obtain ⟨hph, hkey, hnod, hbound, hseq1, hrs, hlock, hreg⟩ := hinv
  have howner : s.sendOwner = some t := (hlock t).mpr (Or.inl h1)
  refine ⟨?_, hkey, hnod, ?_, hseq1, hrs, ?_, ?_⟩
  · intro x
    by_cases hx : x = t
    · subst hx
      have hold := hph x
      simp only [phaseInv, h1] at hold
      obtain ⟨hd0, hc0⟩ := hold
      simp only [phaseInv, registerFailRes, Function.update_same]
      by_cases hr : s.recvDone = true
      · simp [hr, hd0]
      · simp [hr, hd0, hc0]
    · exact phaseInv_congr s _ x (Function.update_noteq hx _ _)
        (Function.update_noteq hx _ _) rfl rfl rfl (hph x)
  · have heq := idleHold_update s.phase t .finished
    rw [h1] at heq
    simp only [phWeight] at heq
    simp only [registerFailRes]
    omega
  · intro x
    simp only [registerFailRes]
    constructor
    · intro hcontra; cases hcontra
    · intro hrhs
      by_cases hx : x = t
      · subst hx
        simp only [Function.update_same] at hrhs
        rcases hrhs with h | ⟨n, h⟩ <;> cases h
      · simp only [Function.update_noteq hx] at hrhs
        have := (hlock x).mpr hrhs
        rw [howner] at this
        exact absurd (Option.some_inj.mp this).symm hx
  · intro hr x n
    by_cases hx : x = t
    · subst hx
      simp [registerFailRes, Function.update_same]
    · simp only [registerFailRes, Function.update_noteq hx]
      exact hreg hr x n

theorem inv_registerOk (hN : N + 1 < u64Mod) (s : MachState N) (t : Fin N)
    (hinv : Inv s) (h1 : s.phase t = .holding)
    (h2 : (s.closing || s.shutdown) = false) :
    Inv (registerOkRes s t) := by
  obtain ⟨hph, hkey, hnod, hbound, hseq1, hrs, hlock, hreg⟩ := hinv
  have howner : s.sendOwner = some t := (hlock t).mpr (Or.inl h1)
  have hsh : s.shutdown = false := by
    cases hcl : s.closing <;> cases hss : s.shutdown <;>
      simp [hcl, hss] at h2 ⊢
  have hrD : s.recvDone = false := by
    cases hr : s.recvDone
    · rfl
    · rw [hrs hr] at hsh; cases hsh
  have hIH : 1 ≤ idleHold s.phase := by
    have := phWeight_le_idleHold s.phase t
    rw [h1] at this
    simpa [phWeight] using this
  have hseqN : s.seq ≤ N := by omega
  have hmod : (s.seq + 1) % u64Mod = s.seq + 1 :=
    Nat.mod_eq_of_lt (by omega)
  have hfresh : s.seq ∉ s.pending.map Prod.fst := by
    intro hmem
    obtain ⟨e, he, hfst⟩ := List.mem_map.mp hmem
    exact absurd (hfst ▸ hkey e he) (lt_irrefl s.seq)
  have hins : insertKey s.pending s.seq t = (s.seq, t) :: s.pending := by
    unfold insertKey
    rw [eraseKey_of_not_mem hfresh]
  refine ⟨?_, ?_, ?_, ?_, ?_, ?_, ?_, ?_⟩
  · intro x
    by_cases hx : x = t
    · subst hx
      have hold := hph x
      simp only [phaseInv, h1] at hold
      obtain ⟨hd0, hc0⟩ := hold
      simp only [phaseInv, registerOkRes, Function.update_same, hins, hmod]
      refine ⟨by omega, Or.inl ⟨hd0, lookupKey_cons_self, ?_⟩⟩
      rw [countVal_cons_self, hc0]
    · have hold := hph x
      simp only [phaseInv, registerOkRes, Function.update_noteq hx, hins,
        hmod]
      cases hpx : s.phase x with
      | idle =>
          simp only [phaseInv, hpx] at hold
          exact ⟨hold.1, by rw [countVal_cons_ne (Ne.symm hx)]; exact hold.2⟩
      | holding =>
          simp only [phaseInv, hpx] at hold
          exact ⟨hold.1, by rw [countVal_cons_ne (Ne.symm hx)]; exact hold.2⟩
      | registered m =>
          simp only [phaseInv, hpx] at hold
          obtain ⟨hm, hrest⟩ := hold
          refine ⟨by omega, ?_⟩
          rcases hrest with ⟨hd, hl, hc⟩ | ⟨hd, hc, hl⟩
          · exact Or.inl ⟨hd, by
              rw [lookupKey_cons_ne (by omega : m ≠ s.seq)]; exact hl,
              by rw [countVal_cons_ne (Ne.symm hx)]; exact hc⟩
          · exact Or.inr ⟨hd, by rw [countVal_cons_ne (Ne.symm hx)]; exact hc,
              by rw [lookupKey_cons_ne (by omega : m ≠ s.seq)]; exact hl⟩
      | finished =>
          simp only [phaseInv, hpx] at hold
          simp only [phaseInv]
          by_cases hr : s.recvDone = true
          · simp only [hr, if_pos] at hold ⊢
            exact hold
          · simp only [hr, if_neg] at hold ⊢
            rw [countVal_cons_ne (Ne.symm hx)]
            exact hold
  · intro e he
    simp only [registerOkRes, hins, hmod] at he ⊢
    rcases List.mem_cons.mp he with h | h
    · rw [h]; omega
    · have := hkey e h; omega
  · simp only [registerOkRes, hins, KeysNodup, List.map_cons]
    exact List.nodup_cons.mpr ⟨hfresh, hnod⟩
  · have heq := idleHold_update s.phase t (.registered s.seq)
    rw [h1] at heq
    simp only [phWeight] at heq
    simp only [registerOkRes, hmod]
    omega
  · simp only [registerOkRes, hmod]
    omega
  · intro hr
    simp only [registerOkRes] at hr ⊢
    exact hrs hr
  · intro x
    simp only [registerOkRes, howner]
    by_cases hx : x = t
    · subst hx
      simp [Function.update_same]
    · simp only [Function.update_noteq hx]
      constructor
      · intro hcontra
        exact absurd (Option.some_inj.mp hcontra) (fun h => hx h.symm)
      · intro hrhs
        have := (hlock x).mpr hrhs
        rw [howner] at this
        exact absurd (Option.some_inj.mp this).symm hx
  · intro hr
    simp only [registerOkRes] at hr
    rw [hrD] at hr
    cases hr

theorem inv_writeOk (s : MachState N) (t : Fin N) (n : Nat) (hinv : Inv s)
    (h1 : s.phase t = .registered n) : Inv (writeOkRes s t) := by
  obtain ⟨hph, hkey, hnod, hbound, hseq1, hrs, hlock, hreg⟩ := hinv
  have howner : s.sendOwner = some t := (hlock t).mpr (Or.inr ⟨n, h1⟩)
  have hrD : s.recvDone = false := by
    cases hr : s.recvDone
    · rfl
    · exact absurd h1 (hreg hr t n)
  refine ⟨?_, hkey, hnod, ?_, hseq1, hrs, ?_, ?_⟩
  · intro x
    by_cases hx : x = t
    · subst hx
      have hold := hph x
      simp only [phaseInv, h1] at hold
      obtain ⟨hm, hrest⟩ := hold
      simp only [phaseInv, writeOkRes, Function.update_same, hrD,
        if_neg (by simp : ¬(false = true))]
      rcases hrest with ⟨hd, _, hc⟩ | ⟨hd, hc, _⟩ <;> omega
    · exact phaseInv_congr s _ x (Function.update_noteq hx _ _) rfl rfl rfl
        rfl (hph x)
  · have heq := idleHold_update s.phase t .finished
    rw [h1] at heq
    simp only [phWeight] at heq
    simp only [writeOkRes]
    omega
  · intro x
    simp only [writeOkRes]
    constructor
    · intro hcontra; cases hcontra
    · intro hrhs
      by_cases hx : x = t
      · subst hx
        simp only [Function.update_same] at hrhs
        rcases hrhs with h | ⟨m, h⟩ <;> cases h
      · simp only [Function.update_noteq hx] at hrhs
        have := (hlock x).mpr hrhs
        rw [howner] at this
        exact absurd (Option.some_inj.mp this).symm hx
  · intro hr x m
    by_cases hx : x = t
    · subst hx
      simp [writeOkRes, Function.update_same]
    · simp only [writeOkRes, Function.update_noteq hx]
      exact hreg hr x m

theorem inv_writeFail (s : MachState N) (t : Fin N) (n : Nat) (hinv : Inv s)
    (h1 : s.phase t = .registered n) : Inv (writeFailRes s t n) := by
  obtain ⟨hph, hkey, hnod, hbound, hseq1, hrs, hlock, hreg⟩ := hinv
  have howner : s.sendOwner = some t := (hlock t).mpr (Or.inr ⟨n, h1⟩)
  have hrD : s.recvDone = false := by
    cases hr : s.recvDone
    · rfl
    · exact absurd h1 (hreg hr t n)
  have holdt := hph t
  simp only [phaseInv, h1] at holdt
  obtain ⟨hm, hrest⟩ := holdt
  cases hl : lookupKey s.pending n with
  | none =>
      have ht2 : s.doneCount t = 1 ∧ countVal s.pending t = 0 := by
        rcases hrest with ⟨_, hlk, _⟩ | ⟨hd, hc, _⟩
        · rw [hl] at hlk; cases hlk
        · exact ⟨hd, hc⟩
      refine ⟨?_, by simpa only [writeFailRes, hl] using hkey,
        by simpa only [writeFailRes, hl] using hnod, ?_,
        by simpa only [writeFailRes, hl] using hseq1,
        by simpa only [writeFailRes, hl] using hrs, ?_, ?_⟩
      · intro x
        by_cases hx : x = t
        · subst hx
          simp only [phaseInv, writeFailRes, hl, Function.update_same, hrD,
            if_neg (by simp : ¬(false = true))]
          omega
        · exact phaseInv_congr s _ x (by
              simp only [writeFailRes, hl]
              exact Function.update_noteq hx _ _)
            (by simp only [writeFailRes, hl])
            (by simp only [writeFailRes, hl])
            (by simp only [writeFailRes, hl])
            (by simp only [writeFailRes, hl]) (hph x)
      · have heq := idleHold_update s.phase t .finished
        rw [h1] at heq
        simp only [phWeight] at heq
        simp only [writeFailRes, hl]
        omega
      · intro x
        simp only [writeFailRes, hl]
        constructor
        · intro hcontra; cases hcontra
        · intro hrhs
          by_cases hx : x = t
          · subst hx
            simp only [Function.update_same] at hrhs
            rcases hrhs with h | ⟨m, h⟩ <;> cases h
          · simp only [Function.update_noteq hx] at hrhs
            have := (hlock x).mpr hrhs
            rw [howner] at this
            exact absurd (Option.some_inj.mp this).symm hx
      · intro hr x m
        simp only [writeFailRes, hl] at hr ⊢
        by_cases hx : x = t
        · subst hx
          simp [Function.update_same]
        · simp only [Function.update_noteq hx]
          exact hreg hr x m
  | some t' =>
      have ht1 : s.doneCount t = 0 ∧ lookupKey s.pending n = some t ∧
          countVal s.pending t = 1 := by
        rcases hrest with h | ⟨_, _, hln⟩
        · exact h
        · rw [hl] at hln; cases hln
      obtain ⟨hd0, hlk, hc1⟩ := ht1
      have htt : t' = t := by
        rw [hl] at hlk; exact Option.some_inj.mp hlk
      subst htt
      have hcount := countVal_eraseKey_of_lookup (t := t') hnod hlk
      rw [if_pos rfl] at hcount
      have hcer : countVal (eraseKey s.pending n) t' = 0 := by omega
      refine ⟨?_, ?_, by simpa only [writeFailRes, hl] using
          keysNodup_eraseKey (n := n) hnod, ?_,
        by simpa only [writeFailRes, hl] using hseq1,
        by simpa only [writeFailRes, hl] using hrs, ?_, ?_⟩
      · intro x
        by_cases hx : x = t'
        · subst hx
          simp only [phaseInv, writeFailRes, hl, Function.update_same, hrD,
            if_neg (by simp : ¬(false = true))]
          omega
        · have hcx := countVal_eraseKey_of_lookup (t := x) hnod hlk
          rw [if_neg (fun h => hx h.symm)] at hcx
          have hold := hph x
          simp only [phaseInv, writeFailRes, hl, Function.update_noteq hx]
          cases hpx : s.phase x with
          | idle =>
              simp only [phaseInv, hpx] at hold
              exact ⟨hold.1, by omega⟩
          | holding =>
              simp only [phaseInv, hpx] at hold
              exact ⟨hold.1, by omega⟩
          | registered m =>
              simp only [phaseInv, hpx] at hold
              obtain ⟨hms, hrx⟩ := hold
              refine ⟨hms, ?_⟩
              rcases hrx with ⟨hd, hlx, hcx1⟩ | ⟨hd, hcx0, hln⟩
              · have hmn : m ≠ n := by
                  intro hmn
                  rw [hmn, hlk] at hlx
                  exact hx (Option.some_inj.mp hlx).symm
                exact Or.inl ⟨hd, by
                  rw [lookupKey_eraseKey_ne hmn]; exact hlx, by omega⟩
              · exact Or.inr ⟨hd, by omega, lookupKey_eraseKey_none hln⟩
          | finished =>
              simp only [phaseInv, hpx, hrD,
                if_neg (by simp : ¬(false = true))] at hold
              simp only [phaseInv, hrD, if_neg (by simp : ¬(false = true))]
              omega
      · intro e he
        simp only [writeFailRes, hl] at he ⊢
        exact hkey e (mem_eraseKey_imp he)
      · have heq := idleHold_update s.phase t' .finished
        rw [h1] at heq
        simp only [phWeight] at heq
        simp only [writeFailRes, hl]
        omega
      · intro x
        simp only [writeFailRes, hl]
        constructor
        · intro hcontra; cases hcontra
        · intro hrhs
          by_cases hx : x = t'
          · subst hx
            simp only [Function.update_same] at hrhs
            rcases hrhs with h | ⟨m, h⟩ <;> cases h
          · simp only [Function.update_noteq hx] at hrhs
            have := (hlock x).mpr hrhs
            rw [howner] at this
            exact absurd (Option.some_inj.mp this).symm hx
      · intro hr x m
        simp only [writeFailRes, hl] at hr ⊢
        by_cases hx : x = t'
        · subst hx
          simp [Function.update_same]
        · simp only [Function.update_noteq hx]
          exact hreg hr x m

theorem inv_recvMatch (s : MachState N) (n : Nat) (t : Fin N) (hinv : Inv s)
    (h1 : s.recvDone = false) (h2 : lookupKey s.pending n = some t) :
    Inv (recvMatchRes s n t) := by
  obtain ⟨hph, hkey, hnod, hbound, hseq1, hrs, hlock, hreg⟩ := hinv
  have hmem : (n, t) ∈ s.pending := mem_of_lookupKey_eq_some h2
  have hpos : 0 < countVal s.pending t := countVal_pos_of_mem hmem
  have hcount := countVal_eraseKey_of_lookup (t := t) hnod h2
  rw [if_pos rfl] at hcount
  refine ⟨?_, ?_, ?_, ?_, hseq1, ?_, ?_, ?_⟩
  · intro x
    by_cases hx : x = t
    · subst hx
      have hold := hph x
      simp only [phaseInv, recvMatchRes, Function.update_same]
      cases hpx : s.phase x with
      | idle =>
          simp only [phaseInv, hpx] at hold
          omega
      | holding =>
          simp only [phaseInv, hpx] at hold
          omega
      | registered m =>
          simp only [phaseInv, hpx] at hold
          obtain ⟨hms, hrx⟩ := hold
          rcases hrx with ⟨hd0, hlk, hc1⟩ | ⟨_, hc0, _⟩
          · have hmn : m = n :=
              countVal_key_unique hc1 (mem_of_lookupKey_eq_some hlk) hmem
            subst hmn
            exact ⟨hms, Or.inr ⟨by omega, by omega, lookupKey_eraseKey_self⟩⟩
          · omega
      | finished =>
          simp only [phaseInv, hpx, h1,
            if_neg (by simp : ¬(false = true))] at hold
          simp only [phaseInv, h1, if_neg (by simp : ¬(false = true))]
          omega
    · have hcx := countVal_eraseKey_of_lookup (t := x) hnod h2
      rw [if_neg (fun h => hx h.symm)] at hcx
      have hold := hph x
      simp only [phaseInv, recvMatchRes, Function.update_noteq hx]
      cases hpx : s.phase x with
      | idle =>
          simp only [phaseInv, hpx] at hold
          exact ⟨hold.1, by omega⟩
      | holding =>
          simp only [phaseInv, hpx] at hold
          exact ⟨hold.1, by omega⟩
      | registered m =>
          simp only [phaseInv, hpx] at hold
          obtain ⟨hms, hrx⟩ := hold
          refine ⟨hms, ?_⟩
          rcases hrx with ⟨hd, hlx, hcx1⟩ | ⟨hd, hcx0, hln⟩
          · have hmn : m ≠ n := by
              intro hmn
              rw [hmn, h2] at hlx
              exact hx (Option.some_inj.mp hlx).symm
            exact Or.inl ⟨hd, by
              rw [lookupKey_eraseKey_ne hmn]; exact hlx, by omega⟩
          · exact Or.inr ⟨hd, by omega, lookupKey_eraseKey_none hln⟩
      | finished =>
          simp only [phaseInv, hpx, h1,
            if_neg (by simp : ¬(false = true))] at hold
          simp only [phaseInv, h1, if_neg (by simp : ¬(false = true))]
          omega
  · intro e he
    exact hkey e (mem_eraseKey_imp he)
  · exact keysNodup_eraseKey hnod
  · simpa only [recvMatchRes] using hbound
  · intro hr
    simp only [recvMatchRes] at hr ⊢
    exact hrs hr
  · intro x
    simpa only [recvMatchRes] using hlock x
  · intro hr
    simp only [recvMatchRes] at hr
    rw [h1] at hr
    cases hr

theorem inv_recvTerminate (s : MachState N) (hinv : Inv s)
    (h1 : s.recvDone = false) (h2 : s.sendOwner = none) :
    Inv (recvTerminateRes s) := by
  obtain ⟨hph, hkey, hnod, hbound, hseq1, hrs, hlock, hreg⟩ := hinv
  have hnohold : ∀ x : Fin N, s.phase x ≠ .holding := by
    intro x hx
    have := (hlock x).mpr (Or.inl hx)
    rw [h2] at this
    cases this
  have hnoreg : ∀ (x : Fin N) (m : Nat), s.phase x ≠ .registered m := by
    intro x m hx
    have := (hlock x).mpr (Or.inr ⟨m, hx⟩)
    rw [h2] at this
    cases this
  refine ⟨?_, hkey, hnod, ?_, hseq1, ?_, ?_, ?_⟩
  · intro x
    have hold := hph x
    simp only [phaseInv, recvTerminateRes]
    cases hpx : s.phase x with
    | idle =>
        simp only [phaseInv, hpx] at hold
        exact ⟨by omega, hold.2⟩
    | holding => exact absurd hpx (hnohold x)
    | registered m => exact absurd hpx (hnoreg x m)
    | finished =>
        simp only [phaseInv, hpx, h1,
          if_neg (by simp : ¬(false = true))] at hold
        simpa using hold
  · simpa only [recvTerminateRes] using hbound
  · intro _
    rfl
  · intro x
    simp only [recvTerminateRes, h2]
    constructor
    · intro hcontra; cases hcontra
    · intro hrhs
      rcases hrhs with h | ⟨m, h⟩
      · exact absurd h (hnohold x)
      · exact absurd h (hnoreg x m)
  · intro _ x m
    exact hnoreg x m

theorem inv_closeClient (s : MachState N) (hinv : Inv s) :
    Inv (closeRes s) := by
  by_cases hs : s.shutdown = true
  · simpa only [closeRes, if_pos hs] using hinv
  · obtain ⟨hph, hkey, hnod, hbound, hseq1, hrs, hlock, hreg⟩ := hinv
    rw [closeRes, if_neg hs]
    refine ⟨?_, hkey, hnod, hbound, hseq1, hrs, hlock, hreg⟩
    intro x
    exact phaseInv_congr s _ x rfl rfl rfl rfl rfl (hph x)

theorem inv_init : Inv (initMach N) := by
  have hsum : idleHold (fun _ : Fin N => SenderPhase.idle) = N := by
    simp [idleHold, phWeight]
  refine ⟨?_, ?_, ?_, ?_, ?_, ?_, ?_, ?_⟩
  · intro t
    simp [phaseInv, initMach, countVal]
  · intro e he
    simp [initMach] at he
  · simp [initMach, KeysNodup]
  · simp only [initMach, hsum]
    omega
  · simp [initMach]
  · simp [initMach]
  · intro t
    simp [initMach]
  · simp [initMach]

theorem inv_step (hN : N + 1 < u64Mod) {s s' : MachState N}
    (hs : Inv s) (h : MStep s s') : Inv s' := by
  cases h with
  | acquire t h1 h2 => exact inv_acquire s t hs h1 h2
  | registerFail t h1 h2 => exact inv_registerFail s t hs h1 h2
  | registerOk t h1 h2 => exact inv_registerOk hN s t hs h1 h2
  | writeOk t n h1 => exact inv_writeOk s t n hs h1
  | writeFail t n h1 => exact inv_writeFail s t n hs h1
  | recvMatch n t h1 h2 => exact inv_recvMatch s n t hs h1 h2
  | recvNoMatch n h1 h2 => exact hs
  | recvTerminate h1 h2 => exact inv_recvTerminate s hs h1 h2
  | closeClient => exact inv_closeClient s hs

theorem inv_reach (hN : N + 1 < u64Mod) {s : MachState N}
    (h : MReach N s) : Inv s := by
  induction h with
  | refl => exact inv_init
  | tail _ hstep ih => exact inv_step hN ih hstep

theorem doneCount_le_one {s : MachState N} (hs : Inv s) (t : Fin N) :
    s.doneCount t ≤ 1 := by
  have h := hs.1 t
  cases hpx : s.phase t with
  | idle => simp only [phaseInv, hpx] at h; omega
  | holding => simp only [phaseInv, hpx] at h; omega
  | registered m =>
      simp only [phaseInv, hpx] at h
      rcases h.2 with ⟨hd, _, _⟩ | ⟨hd, _, _⟩ <;> omega
  | finished =>
      simp only [phaseInv, hpx] at h
      cases hr : s.recvDone
      · rw [hr] at h; simp at h; omega
      · rw [hr] at h; simp at h; omega

/-! ### Claim theorems: client side -/

/-- **C3**: every `Call` created on a client receives exactly one terminal
delivery on its completion channel.  Along every reachable interleaving of
`N` concurrent `Go` callers with the receiver and `Close`, no call is ever
delivered twice; and once every caller has returned and the receiver has
terminated, every one of the `N` calls has been delivered exactly once —
in total exactly `N` completions, each on its own channel. -/
theorem client_calls_delivered_exactly_once {N : Nat}
    (hN : N + 1 < u64Mod) (s : MachState N) (hreach : MReach N s) :
    (∀ t, s.doneCount t ≤ 1) ∧
    ((∀ t, s.phase t = .finished) → s.recvDone = true →
      (∀ t, s.doneCount t = 1) ∧ (∑ t, s.doneCount t) = N) := by
  have hinv := inv_reach hN hreach
  refine ⟨fun t => doneCount_le_one hinv t, fun hfin hrd => ?_⟩
  have hone : ∀ t, s.doneCount t = 1 := by
    intro t
    have h := hinv.1 t
    simp only [phaseInv, hfin t] at h
    rw [hrd] at h
    simpa using h
  refine ⟨hone, ?_⟩
  calc (∑ t, s.doneCount t) = ∑ _t : Fin N, 1 :=
        Finset.sum_congr rfl (fun t _ => hone t)
    _ = N := by simp

/-- Witness for C3 at `N = 1` and the initial state. -/
theorem client_calls_delivered_exactly_once_witness :
    (1 + 1 < u64Mod) ∧
    ((∀ t, (initMach 1).doneCount t ≤ 1) ∧
     ((∀ t, (initMach 1).phase t = .finished) →
        (initMach 1).recvDone = true →
        (∀ t, (initMach 1).doneCount t = 1) ∧
          (∑ t, (initMach 1).doneCount t) = 1)) :=
  ⟨by norm_num [u64Mod],
    client_calls_delivered_exactly_once (by norm_num [u64Mod]) (initMach 1)
      Relation.ReflTransGen.refl⟩

/-- **C2**: over any lifetime of operations of one client (that stays
below the `uint64` wraparound), the successful registrations receive
exactly the consecutive sequence numbers `1, 2, 3, …`: strictly increasing,
starting at 1, never 0, never reused for two calls. -/
theorem client_seq_assignment_discipline (ops : List ClientOp)
    (hb : 1 + ops.countP ClientOp.isRegister < u64Mod) :
    ((runOps newClientCodec ops).2 =
        List.range' 1 (runOps newClientCodec ops).2.length) ∧
    List.Pairwise (· < ·) (runOps newClientCodec ops).2 ∧
    ((runOps newClientCodec ops).2 ≠ [] →
        (runOps newClientCodec ops).2.head? = some 1) ∧
    0 ∉ (runOps newClientCodec ops).2 ∧
    (runOps newClientCodec ops).2.Nodup := by
  have hmain : (runOps newClientCodec ops).2 =
      List.range' 1 (runOps newClientCodec ops).2.length := by
    simpa [newClientCodec] using runOps_assigned ops newClientCodec
      (by simpa [newClientCodec] using hb)
  refine ⟨hmain, ?_, ?_, ?_, ?_⟩
  · rw [hmain]
    exact List.pairwise_lt_range' 1 _
  · intro hne
    have hlen : (runOps newClientCodec ops).2.length ≠ 0 := by
      intro h0
      exact hne (List.length_eq_zero.mp h0)
    rw [hmain, List.head?_range', if_neg hlen]
  · rw [hmain]
    intro hmem
    rw [List.mem_range'_1] at hmem
    omega
  · rw [hmain]
    exact List.nodup_range' 1 _

/-- A concrete operation trace for the C2 witness: two registrations, a
response removal, a `Close`, and a rejected registration afterwards. -/
def c2ops : List ClientOp :=
  [.opRegister (mkCall "Foo.Sum" "rpc req 0"),
   .opRegister (mkCall "Foo.Sum" "rpc req 1"),
   .opRemove 1,
   .opClose,
   .opRegister (mkCall "Foo.Sum" "rpc req 2")]

/-- Witness for C2 on the trace `c2ops`. -/
theorem client_seq_assignment_discipline_witness :
    (1 + c2ops.countP ClientOp.isRegister < u64Mod) ∧
    (((runOps newClientCodec c2ops).2 =
        List.range' 1 (runOps newClientCodec c2ops).2.length) ∧
     List.Pairwise (· < ·) (runOps newClientCodec c2ops).2 ∧
     ((runOps newClientCodec c2ops).2 ≠ [] →
        (runOps newClientCodec c2ops).2.head? = some 1) ∧
     0 ∉ (runOps newClientCodec c2ops).2 ∧
     (runOps newClientCodec c2ops).2.Nodup) :=
  ⟨by decide,
    client_seq_assignment_discipline c2ops (by decide)⟩

/-- Concrete data for the C1 counterexample. -/
def c1call : Call :=
  { Seq := 1, ServiceMethod := "Foo.Sum", Args := "rpc req 1",
    Error := none }

/-- A client state with one in-flight call, as left by a successful send. -/
def c1state : ClientState :=
  { seq := 2, pending := [(1, c1call)], closing := false,
    shutdown := false }

/-- **C1** (counterexample): the claim says the shutdown sweep clears the
pending table; on the code it does not — after `terminateCalls` the entry
for sequence 1 is still present, so "every entry removed by the sweep" is
false at this input. -/
theorem terminateCalls_leaves_pending_in_place :
    ¬((terminateCalls c1state (.text "read error")).1.pending = []) := by
  decide

/-- **C1 (amended)**: when the receiver loop exits on its first read
error, the sweep sets the shutdown flag, sets every pending call's error
to the triggering error and delivers each such call exactly once (one
delivery per pending entry) — but it does not remove the entries: the
pending table is left unchanged (further use is prevented by the shutdown
flag, not by clearing). -/
theorem receive_exit_sweep_behaviour :
    (∀ (st : ClientState) (err : RpcError),
      (terminateCalls st err).1.shutdown = true ∧
      (terminateCalls st err).2 =
        st.pending.map (fun e => { e.2 with Error := some err }) ∧
      (terminateCalls st err).2.length = st.pending.length ∧
      (terminateCalls st err).1.pending = st.pending) ∧
    (∀ (st st1 : ClientState) (inputs : List RecvInput) (ds : List Call)
        (e : String),
      receiveLoop st inputs = (st1, ds, some e) →
      receive st inputs =
        ({ st1 with shutdown := true },
          ds ++ st1.pending.map
            (fun p => { p.2 with Error := some (.text e) }))) := by
  constructor
  · intro st err
    exact ⟨rfl, rfl, by simp [terminateCalls], rfl⟩
  · intro st st1 inputs ds e h
    simp [receive, h, terminateCalls]

/-- Witness for C1 (amended): a header-read error with one pending call. -/
theorem receive_exit_sweep_behaviour_witness :
    (receiveLoop c1state [RecvInput.hdrErr "read error"]
        = (c1state, [], some "read error")) ∧
    receive c1state [RecvInput.hdrErr "read error"]
      = ({ c1state with shutdown := true },
          [] ++ c1state.pending.map
            (fun p => { p.2 with Error := some (.text "read error") })) :=
  ⟨by decide,
    receive_exit_sweep_behaviour.2 c1state c1state
      [RecvInput.hdrErr "read error"] [] "read error" (by decide)⟩

/-! ### Claim theorems: server side -/

theorem serveLoop_headerFail (rest : List InFrame) :
    serveLoop (.headerFail :: rest) = ([], []) := rfl

theorem serveLoop_bodyFail (h : Header) (e : String) (rest : List InFrame) :
    serveLoop (.bodyFail h e :: rest)
      = (({ h with Error := e }, .invalidReq) :: (serveLoop rest).1,
          (serveLoop rest).2) := rfl

theorem serveLoop_good (h : Header) (a : String) (rest : List InFrame) :
    serveLoop (.good h a :: rest)
      = ((serveLoop rest).1, (h, a) :: (serveLoop rest).2) := rfl

/-- **C4**: a frame whose header decodes but whose body does not is not a
connection failure: the loop emits exactly one response for it — the same
header with its error field set to the failure text and the
`invalidRequest` (empty) body — and keeps processing the following frames
exactly as it would have without the malformed frame (both the loop's
further responses and the handlers it spawns). -/
theorem server_body_decode_failure_keeps_serving
    (pre post : List InFrame) (h : Header) (e : String) :
    InFrame.headerFail ∉ pre →
    (serveLoop (pre ++ .bodyFail h e :: post)).1 =
      (serveLoop pre).1 ++ ({ h with Error := e }, .invalidReq) ::
        (serveLoop post).1 ∧
    (serveLoop (pre ++ .bodyFail h e :: post)).2 =
      (serveLoop pre).2 ++ (serveLoop post).2 := by
  induction pre with
  | nil =>
      intro _
      simp [serveLoop_bodyFail, serveLoop]
  | cons f rest ih =>
      intro hpre
      have hrest : InFrame.headerFail ∉ rest :=
        fun hm => hpre (List.mem_cons_of_mem f hm)
      obtain ⟨ih1, ih2⟩ := ih hrest
      cases f with
      | headerFail => exact absurd (List.mem_cons_self _ _) hpre
      | bodyFail h' e' =>
          rw [List.cons_append, serveLoop_bodyFail, serveLoop_bodyFail]
          simp [ih1, ih2]
      | good h' a' =>
          rw [List.cons_append, serveLoop_good, serveLoop_good]
          simp [ih1, ih2]

/-- Witness for C4: one good frame, then the malformed one, then another
good frame; the loop answers the malformed frame once and still spawns
both handlers. -/
theorem server_body_decode_failure_keeps_serving_witness :
    (InFrame.headerFail ∉
      [InFrame.good { ServiceMethod := "Foo.Sum", Seq := 0, Error := "" }
          "rpc req 0"]) ∧
    ((serveLoop ([InFrame.good
          { ServiceMethod := "Foo.Sum", Seq := 0, Error := "" } "rpc req 0"]
        ++ .bodyFail { ServiceMethod := "Foo.Sum", Seq := 1, Error := "" }
            "json: cannot unmarshal" ::
          [InFrame.good { ServiceMethod := "Foo.Sum", Seq := 2, Error := "" }
            "rpc req 2"])).1 =
      (serveLoop [InFrame.good
          { ServiceMethod := "Foo.Sum", Seq := 0, Error := "" }
          "rpc req 0"]).1 ++
        ({ ServiceMethod := "Foo.Sum", Seq := 1,
            Error := "json: cannot unmarshal" }, .invalidReq) ::
        (serveLoop [InFrame.good
          { ServiceMethod := "Foo.Sum", Seq := 2, Error := "" }
          "rpc req 2"]).1 ∧
     (serveLoop ([InFrame.good
          { ServiceMethod := "Foo.Sum", Seq := 0, Error := "" } "rpc req 0"]
        ++ .bodyFail { ServiceMethod := "Foo.Sum", Seq := 1, Error := "" }
            "json: cannot unmarshal" ::
          [InFrame.good { ServiceMethod := "Foo.Sum", Seq := 2, Error := "" }
            "rpc req 2"])).2 =
      (serveLoop [InFrame.good
          { ServiceMethod := "Foo.Sum", Seq := 0, Error := "" }
          "rpc req 0"]).2 ++
        (serveLoop [InFrame.good
          { ServiceMethod := "Foo.Sum", Seq := 2, Error := "" }
          "rpc req 2"]).2) :=
  ⟨by decide,
    server_body_decode_failure_keeps_serving _ _ _ _ (by decide)⟩

/-- **C5**: a handshake whose `Option` carries the wrong magic number, or
a codec type with no registered factory, aborts the connection before any
frame exchange: zero responses are sent and the serving loop is never
entered. -/
theorem handshake_rejects_before_serving
    (reg : String → Bool) (opt : RpcOption) (frames : List InFrame) :
    opt.MagicNumber ≠ MagicNumber ∨ reg opt.CodecType = false →
    (ServeConn reg (some opt) frames).2 = [] ∧
    (ServeConn reg (some opt) frames).1 ≠ .served := by
  intro hcase
  by_cases hm : opt.MagicNumber = MagicNumber
  · rcases hcase with h | h
    · exact absurd hm h
    · simp [ServeConn, hm, h]
  · simp [ServeConn, hm]

/-- Witness for C5: an `Option` with magic number 0 and an unregistered
codec type against a registry that only knows `"application/json"`. -/
theorem handshake_rejects_before_serving_witness :
    (({ MagicNumber := 0, CodecType := "application/gob" } :
        RpcOption).MagicNumber ≠ MagicNumber ∨
      (fun s => s == "application/json")
        ({ MagicNumber := 0, CodecType := "application/gob" } :
          RpcOption).CodecType = false) ∧
    ((ServeConn (fun s => s == "application/json")
        (some { MagicNumber := 0, CodecType := "application/gob" })
        [InFrame.headerFail]).2 = [] ∧
     (ServeConn (fun s => s == "application/json")
        (some { MagicNumber := 0, CodecType := "application/gob" })
        [InFrame.headerFail]).1 ≠ .served) :=
  ⟨by decide,
    handshake_rejects_before_serving _ _ _ (by decide)⟩

/-- **C9**: the placeholder handler's reply is a deterministic function of
the request's sequence number alone (independent of the decoded argument
and of the other header fields), and it literally contains the decimal
rendering of the sequence number; e.g. sequence 3 yields
`"rpc resp 3"`. -/
theorem handler_reply_deterministic_from_seq :
    (∀ (h1 h2 : Header) (a1 a2 : String), h1.Seq = h2.Seq →
      (handleRequest h1 a1).2 = (handleRequest h2 a2).2) ∧
    (∀ (h : Header) (a : String),
      (handleRequest h a).2 = .reply ("rpc resp " ++ toString h.Seq)) ∧
    (∀ (h : Header) (a : String), ∃ pre suf : String,
      (handleRequest h a).2 = .reply (pre ++ toString h.Seq ++ suf)) ∧
    (handleRequest { ServiceMethod := "Foo.Sum", Seq := 3, Error := "" }
        "req-3").2 = .reply "rpc resp 3" := by
  refine ⟨?_, fun h a => rfl, ?_, by decide⟩
  · intro h1 h2 a1 a2 hseq
    simp [handleRequest, hseq]
  · intro h a
    exact ⟨"rpc resp ", "", by simp [handleRequest]⟩

/-- Witness for C9: two requests with equal sequence numbers but different
methods and arguments produce the same reply. -/
theorem handler_reply_deterministic_from_seq_witness :
    (({ ServiceMethod := "Foo.Sum", Seq := 3, Error := "" } :
        Header).Seq =
      ({ ServiceMethod := "Bar.Baz", Seq := 3, Error := "x" } :
        Header).Seq) ∧
    (handleRequest { ServiceMethod := "Foo.Sum", Seq := 3, Error := "" }
        "req-3").2 =
      (handleRequest { ServiceMethod := "Bar.Baz", Seq := 3, Error := "x" }
        "other").2 :=
  ⟨rfl,
    handler_reply_deterministic_from_seq.1 _ _ "req-3" "other" rfl⟩

/-- Once a serving connection has closed its codec, its dispatch loop has
exited and its wait-group has drained. -/
theorem sreach_closed_drained (frames : List InFrame) (s : SrvState)
    (h : SReach frames s) :
    s.closed = true → s.looping = false ∧ s.outstanding = [] := by
  induction h with
  | refl => intro hc; cases hc
  | tail _ hstep ih =>
      intro hc
      cases hstep with
      | readHeaderFail rest h1 h2 =>
          obtain ⟨hlp, _⟩ := ih hc
          rw [hlp] at h1
          cases h1
      | readBodyFail h e rest h1 h2 =>
          obtain ⟨hlp, _⟩ := ih hc
          rw [hlp] at h1
          cases h1
      | readGood h a rest h1 h2 =>
          obtain ⟨hlp, _⟩ := ih hc
          rw [hlp] at h1
          cases h1
      | handleOne i hi =>
          obtain ⟨_, hout⟩ := ih hc
          rw [hout] at hi
          simp at hi
      | closeCodec h1 h2 h3 =>
          exact ⟨h1, h2⟩

/-- **C7**: the transition that exits the read-dispatch loop (a header
read failure) emits no response; the transition that closes the codec is
only enabled once the loop has exited and every outstanding handler has
finished (the wait-group has drained); and from any reachable state in
which the codec is closed, no further step — in particular no handler
response write — is possible. -/
theorem server_drains_handlers_before_close :
    (∀ s s' : SrvState, SStep s s' → s.looping = true →
      s'.looping = false → s'.events = s.events) ∧
    (∀ s s' : SrvState, SStep s s' → s.closed = false → s'.closed = true →
      s.looping = false ∧ s.outstanding = [] ∧
        s'.events = s.events ++ [SrvEvent.closedEv]) ∧
    (∀ (frames : List InFrame) (s s' : SrvState),
      SReach frames s → s.closed = true → ¬SStep s s') := by
  refine ⟨?_, ?_, ?_⟩
  · intro s s' hstep hl hl'
    cases hstep with
    | readHeaderFail rest h1 h2 => rfl
    | readBodyFail h e rest h1 h2 =>
        have h' : s.looping = false := hl'
        rw [hl] at h'
        cases h'
    | readGood h a rest h1 h2 => rfl
    | handleOne i hi =>
        have h' : s.looping = false := hl'
        rw [hl] at h'
        cases h'
    | closeCodec h1 h2 h3 =>
        rw [h1] at hl
        cases hl
  · intro s s' hstep hc hc'
    cases hstep with
    | readHeaderFail rest h1 h2 =>
        have h' : s.closed = true := hc'
        rw [hc] at h'
        cases h'
    | readBodyFail h e rest h1 h2 =>
        have h' : s.closed = true := hc'
        rw [hc] at h'
        cases h'
    | readGood h a rest h1 h2 =>
        have h' : s.closed = true := hc'
        rw [hc] at h'
        cases h'
    | handleOne i hi =>
        have h' : s.closed = true := hc'
        rw [hc] at h'
        cases h'
    | closeCodec h1 h2 h3 => exact ⟨h1, h2, rfl⟩
  · intro frames s s' hreach hc hstep
    obtain ⟨hlp, hout⟩ := sreach_closed_drained frames s hreach hc
    cases hstep with
    | readHeaderFail rest h1 h2 =>
        rw [hlp] at h1
        cases h1
    | readBodyFail h e rest h1 h2 =>
        rw [hlp] at h1
        cases h1
    | readGood h a rest h1 h2 =>
        rw [hlp] at h1
        cases h1
    | handleOne i hi =>
        rw [hout] at hi
        simp at hi
    | closeCodec h1 h2 h3 =>
        rw [hc] at h3
        cases h3

/-- C7 witness states: a header-failure frame, the loop-exit step, and the
close step. -/
def c7s0 : SrvState := srvInit [InFrame.headerFail]

def c7s1 : SrvState := { c7s0 with looping := false, frames := [] }

def c7s2 : SrvState :=
  { c7s1 with closed := true, events := c7s1.events ++ [SrvEvent.closedEv] }

/-- Witness for C7 along the concrete run
`c7s0 → (header fails) → c7s1 → (close) → c7s2`. -/
theorem server_drains_handlers_before_close_witness :
    c7s1.events = c7s0.events ∧
    (c7s1.looping = false ∧ c7s1.outstanding = [] ∧
      c7s2.events = c7s1.events ++ [SrvEvent.closedEv]) ∧
    ¬SStep c7s2 c7s2 := by
  have hstep01 : SStep c7s0 c7s1 :=
    SStep.readHeaderFail c7s0 [] rfl rfl
  have hstep12 : SStep c7s1 c7s2 :=
    SStep.closeCodec c7s1 rfl rfl rfl
  have hreach : SReach [InFrame.headerFail] c7s2 :=
    (Relation.ReflTransGen.refl.tail hstep01).tail hstep12
  exact ⟨server_drains_handlers_before_close.1 c7s0 c7s1 hstep01 rfl rfl,
    server_drains_handlers_before_close.2.1 c7s1 c7s2 hstep12 rfl rfl,
    server_drains_handlers_before_close.2.2 [InFrame.headerFail] c7s2 c7s2
      hreach rfl⟩

/-! ### Claim theorems: send path, Close and Go -/

/-- **C6**: a `Go` submission whose registration is rejected (client
closing or shut down) is delivered immediately with `ErrShutdown` and no
frame write is attempted, the client state untouched; one whose frame
write fails is removed from the pending table and delivered immediately
with the write error — its sequence number no longer maps to anything. -/
theorem send_failure_paths (st : ClientState) (call : Call)
    (w : Option RpcError) :
    (st.closing = true ∨ st.shutdown = true →
      send st call w =
        (st, [.delivered { call with Error := some .shutdown }])) ∧
    (st.closing = false → st.shutdown = false →
      ∀ werr : RpcError, w = some werr →
      (send st call w).2 =
        [.writeAttempt
            { ServiceMethod := call.ServiceMethod, Seq := st.seq,
                Error := "" }
            call.Args,
         .delivered { call with Seq := st.seq, Error := some werr }] ∧
      lookupKey (send st call w).1.pending st.seq = none) := by
  constructor
  · intro hflag
    have hb : (st.closing || st.shutdown) = true := by
      rcases hflag with h | h <;> simp [h]
    simp [send, registerCall, hb]
  · intro hcl hsh werr hw
    subst hw
    have hb : (st.closing || st.shutdown) = false := by simp [hcl, hsh]
    constructor
    · simp [send, registerCall, hb, removeCall, insertKey,
        lookupKey_cons_self]
    · simp [send, registerCall, hb, removeCall, insertKey,
        lookupKey_cons_self, lookupKey_eraseKey_self]

/-- Witness for C6: a rejected registration on a closing client, and a
failed write on a fresh client. -/
theorem send_failure_paths_witness :
    (send { newClientCodec with closing := true } (mkCall "Foo.Sum" "x")
        none =
      ({ newClientCodec with closing := true },
       [.delivered
          { mkCall "Foo.Sum" "x" with Error := some .shutdown }])) ∧
    ((send newClientCodec (mkCall "Foo.Sum" "x")
        (some (.text "broken pipe"))).2 =
      [.writeAttempt
          { ServiceMethod := "Foo.Sum", Seq := newClientCodec.seq,
              Error := "" }
          "x",
       .delivered
          { mkCall "Foo.Sum" "x" with
              Seq := newClientCodec.seq,
              Error := some (.text "broken pipe") }] ∧
     lookupKey (send newClientCodec (mkCall "Foo.Sum" "x")
        (some (.text "broken pipe"))).1.pending newClientCodec.seq
       = none) :=
  ⟨(send_failure_paths _ _ none).1 (Or.inl rfl),
    (send_failure_paths _ _ _).2 rfl rfl (.text "broken pipe") rfl⟩

/-- **C8**: `Close` returns `ErrShutdown` exactly when the receiver's
sweep had already set the shutdown flag; otherwise it sets the closing
flag and returns the codec close result (success when that close
succeeds).  Once either flag is set every registration attempt fails with
`ErrShutdown` and leaves the state unchanged, and neither flag is ever
cleared by any later operation. -/
theorem close_shutdown_discipline :
    (∀ (st : ClientState) (cc : Option String),
      ((Close st cc).2 = some .shutdown ↔ st.shutdown = true)) ∧
    (∀ (st : ClientState) (cc : Option String), st.shutdown = false →
      (Close st cc).1.closing = true ∧ (Close st cc).2 = cc.map .text ∧
      (cc = none → (Close st cc).2 = none)) ∧
    (∀ (st : ClientState) (c : Call),
      st.closing = true ∨ st.shutdown = true →
      registerCall st c = (st, .error .shutdown)) ∧
    (∀ (st : ClientState) (ops : List ClientOp),
      (st.shutdown = true → (runOps st ops).1.shutdown = true) ∧
      (st.closing = true → (runOps st ops).1.closing = true)) := by
  refine ⟨?_, ?_, ?_, ?_⟩
  · intro st cc
    by_cases hs : st.shutdown = true
    · simp [Close, hs]
    · simp only [Close, hs, if_neg, Bool.false_eq_true]
      constructor
      · intro h
        cases cc with
        | none => cases h
        | some s =>
            rw [Option.map_some'] at h
            cases Option.some_inj.mp h
      · intro h
        exact h.elim
  · intro st cc hs
    rw [Bool.eq_false_iff] at hs
    exact ⟨by simp [Close, hs], by simp [Close, hs], fun hcc => by
      simp [Close, hs, hcc]⟩
  · intro st c hflag
    have hb : (st.closing || st.shutdown) = true := by
      rcases hflag with h | h <;> simp [h]
    simp [registerCall, hb]
  · intro st ops
    induction ops generalizing st with
    | nil => exact ⟨fun h => h, fun h => h⟩
    | cons op rest ih =>
        have hmono : ((applyOp st op).1.shutdown = true ∨
              st.shutdown = false) ∧
            ((applyOp st op).1.closing = true ∨ st.closing = false) := by
          cases op with
          | opRegister c =>
              by_cases hb : (st.closing || st.shutdown) = true
              · simp [applyOp, registerCall, hb]
              · simp [applyOp, registerCall, hb]
          | opRemove n => simp [applyOp, removeCall]
          | opTerminate e => simp [applyOp, terminateCalls]
          | opClose =>
              by_cases hs : st.shutdown = true
              · simp [applyOp, Close, hs]
              · simp [applyOp, Close, hs]
        constructor
        · intro h
          have h1 : (applyOp st op).1.shutdown = true := by
            rcases hmono.1 with h2 | h2
            · exact h2
            · rw [h] at h2; cases h2
          have := (ih (applyOp st op).1).1 h1
          simpa [runOps] using this
        · intro h
          have h1 : (applyOp st op).1.closing = true := by
            rcases hmono.2 with h2 | h2
            · exact h2
            · rw [h] at h2; cases h2
          have := (ih (applyOp st op).1).2 h1
          simpa [runOps] using this

/-- Witness for C8 at concrete states: a shut-down client, a fresh client,
a closing client's rejected registration, and flag persistence along a
concrete trace. -/
theorem close_shutdown_discipline_witness :
    ((Close { newClientCodec with shutdown := true } none).2 =
        some RpcError.shutdown ↔
      ({ newClientCodec with shutdown := true } : ClientState).shutdown
        = true) ∧
    ((Close newClientCodec none).1.closing = true ∧
      (Close newClientCodec none).2 = Option.map RpcError.text none ∧
      ((none : Option String) = none →
        (Close newClientCodec none).2 = none)) ∧
    registerCall { newClientCodec with closing := true }
        (mkCall "Foo.Sum" "x")
      = ({ newClientCodec with closing := true }, .error .shutdown) ∧
    ((runOps { newClientCodec with shutdown := true } c2ops).1.shutdown
        = true) :=
  ⟨close_shutdown_discipline.1 _ none,
   close_shutdown_discipline.2.1 newClientCodec none rfl,
   close_shutdown_discipline.2.2.1 _ _ (Or.inl rfl),
   (close_shutdown_discipline.2.2.2 _ c2ops).1 rfl⟩

/-- **C10**: `Go` with a `nil` completion channel allocates one of
capacity 10; with an unbuffered channel it panics without submitting the
call; with a caller-supplied buffered channel it submits using that
channel as given. -/
theorem go_done_channel_policy :
    (∀ (st : ClientState) (m a : String) (w : Option RpcError),
      Go st m a .nilChan w = .ok (10, send st (mkCall m a) w)) ∧
    (∀ (st : ClientState) (m a : String) (w : Option RpcError),
      Go st m a (.buffered 0) w
        = .error "rpc client: done channel is unbuffered") ∧
    (∀ (st : ClientState) (m a : String) (w : Option RpcError) (c : Nat),
      Go st m a (.buffered (c + 1)) w
        = .ok (c + 1, send st (mkCall m a) w)) :=
  ⟨fun _ _ _ _ => rfl, fun _ _ _ _ => rfl, fun _ _ _ _ _ => rfl⟩

end RpcDemo
